import Mathlib

/-!
# Verification of the freemind-cli reconciliation engine

Shallow embedding of the record store and XML patch engine of
`src/data.rs` / `src/main.rs` (the two files carry near-identical copies of
the `data_types` module; where they differ both versions are embedded and
named accordingly).

Modelling conventions:
* `u16` / `u32` become `Nat` (all operations here are comparisons and
  decimal printing, so no overflow arithmetic occurs);
* the XML documents are modelled at the `quick_xml` event level: a
  document is a `List XmlEvent` of start tags (with their decoded
  attribute lists), end tags and text nodes.  `Reader::trim_text(true)` is
  set by the source, so "byte-equivalent modulo insignificant whitespace"
  is event-list equality;
* the random number generator of `rand::thread_rng` becomes an explicit
  stream `rng : Nat → Nat` sampled at an index `k` (each draw is
  `rng k % 2^16`, matching `rng.gen::<u16>()`), and the rejection loop of
  `generate_id` carries fuel: `none` models non-termination of the loop;
* functions of the source that do not terminate on some inputs (the
  recursive `PartialEq`, the merge that calls it) return `Option`,
  `none` standing for divergence / a crash.
-/

namespace Freemind

/-- `AppElement` of the source: one record.  `id: Option<u16>`,
`title`/`description: String`, `due: Option<u32>`, `removed: bool`
(the local-only tombstone, `#[serde(skip)]`). -/
structure AppElement where
  id : Option Nat
  title : String
  description : String
  due : Option Nat
  removed : Bool
deriving Repr, DecidableEq

/-- `AppElement::new(id, title, description, due)`: `removed` starts `false`. -/
def AppElement.new (id : Option Nat) (title description : String) (due : Option Nat) :
    AppElement :=
  ⟨id, title, description, due, false⟩

/-- The `PartialEq for AppElement` implementation, indexed by recursion
fuel.  The source is

    match self.id {
        Some(id) => Some(id) == other.id,
        None => self == other, // Isn't this recursive???
    }

the `None` arm calls the very same comparison again, so no amount of fuel
produces an answer there; `none` models that non-termination (in Rust: a
stack overflow). -/
def eqFuel : Nat → AppElement → AppElement → Option Bool
  | 0, _, _ => none
  | fuel + 1, a, b =>
    match a.id with
    | some i => some (decide (some i = b.id))
    | none => eqFuel fuel a b

/-- Denotational value of the source `PartialEq`: the answer the
comparison returns when it terminates, `none` when it recurses forever
(exactly when the left record lacks an identifier). -/
def eqRust (a b : AppElement) : Option Bool :=
  match a.id with
  | some i => some (decide (some i = b.id))
  | none => none

/-- `AppState::get_ids(ignore_removed)` of the source:

    self.elements.clone().into_iter()
        .filter(|e| !e.removed && ignore_removed)
        .filter_map(|e| e.id).collect()
-/
def get_ids (elements : List AppElement) (ignore_removed : Bool) : List Nat :=
  (elements.filter (fun e => !e.removed && ignore_removed)).filterMap (fun e => e.id)

/-- `AppState::push(element: Option<AppElement>)`: append when present. -/
def push (elements : List AppElement) (element : Option AppElement) : List AppElement :=
  match element with
  | some e => elements ++ [e]
  | none => elements

/-- `AppState::remove(id)`: tombstone the first record whose identifier
matches (`position` + set `removed = true`); returns whether one was found. -/
def remove (v : Nat) : List AppElement → List AppElement × Bool
  | [] => ([], false)
  | e :: rest =>
    if e.id = some v then ({ e with removed := true } :: rest, true)
    else
      let (r, b) := remove v rest
      (e :: r, b)

/-- Rust `str::parse::<u16>()` on the decoded attribute value: an
optional leading `+`, then one or more decimal digits, value below
`2^16` (overflow is a parse failure). -/
def parseU16 (s : String) : Option Nat :=
  let cs := match s.data with
    | '+' :: rest => rest
    | cs => cs
  if cs.isEmpty then none
  else if cs.all Char.isDigit then
    let n := cs.foldl (fun a c => a * 10 + (c.toNat - 48)) 0
    if n < 65536 then some n else none
  else none

/-- One draw of `rng.gen::<u16>()` at stream position `k`. -/
def sampleU16 (rng : Nat → Nat) (k : Nat) : Nat := rng k % 65536

/-- The rejection loop of `AppElement::generate_id`:

    while new_id == 0 || existing_ids.iter().any(|&i| i==new_id) {
        new_id = rng.gen::<u16>();
    }

returns the accepted draw and the next stream position; `none` when the
loop does not accept within `fuel` draws. -/
def genLoop (existing : List Nat) (rng : Nat → Nat) : Nat → Nat → Option (Nat × Nat)
  | 0, _ => none
  | fuel + 1, k =>
    let c := sampleU16 rng k
    if c = 0 ∨ c ∈ existing then genLoop existing rng fuel (k + 1)
    else some (c, k + 1)

/-- `AppElement::generate_id(&mut self, existing_ids)`: draw a fresh
identifier, assign it to the record, push it onto `existing_ids`, return
it.  Result: (new id, updated record, updated existing ids, next rng
position). -/
def generate_id (e : AppElement) (existing : List Nat) (rng : Nat → Nat) (k fuel : Nat) :
    Option (Nat × AppElement × List Nat × Nat) :=
  (genLoop existing rng fuel k).map
    (fun p => (p.1, { e with id := some p.1 }, existing ++ [p.1], p.2))

/-- Result of one allocation batch over the store. -/
structure AllocResult where
  elements : List AppElement
  existing : List Nat
  newIds : List Nat
  next : Nat
deriving Repr, DecidableEq

/-- The traversal inside `AppState::add_missing_ids`: walk the store in
order, and for every record whose identifier is absent call
`generate_id` against the threaded `existing_ids`, collecting the new
identifiers in order. -/
def allocBatch (rng : Nat → Nat) (fuel : Nat) :
    List AppElement → List Nat → Nat → Option AllocResult
  | [], existing, k => some ⟨[], existing, [], k⟩
  | e :: rest, existing, k =>
    match e.id with
    | some _ =>
      (allocBatch rng fuel rest existing k).map
        (fun r => ⟨e :: r.elements, r.existing, r.newIds, r.next⟩)
    | none =>
      match genLoop existing rng fuel k with
      | none => none
      | some (v, k1) =>
        (allocBatch rng fuel rest (existing ++ [v]) k1).map
          (fun r => ⟨{ e with id := some v } :: r.elements, r.existing, v :: r.newIds, r.next⟩)

/-- `AppState::add_missing_ids` as in `src/data.rs`: `count_after` is the
number of records that lacked an identifier (= number of new ids), and
the returned flag is `count_after != 0`.  Result:
(updated store, entries_added, new_ids, updated existing ids, next rng
position). -/
def add_missing_ids (elements : List AppElement) (existing : List Nat) (rng : Nat → Nat)
    (k fuel : Nat) : Option (List AppElement × Bool × List Nat × List Nat × Nat) :=
  (allocBatch rng fuel elements existing k).map
    (fun r => (r.elements, decide (r.newIds.length ≠ 0), r.newIds, r.existing, r.next))

/-- `AppState::add_missing_ids` as in `src/main.rs` (the module actually
compiled into the binary): identical traversal, but the flag is
`count_before != count_after` where `count_before = self.elements.len()`
and `count_after` is the number of records that lacked an identifier. -/
def add_missing_ids_main (elements : List AppElement) (existing : List Nat) (rng : Nat → Nat)
    (k fuel : Nat) : Option (List AppElement × Bool × List Nat × List Nat × Nat) :=
  (allocBatch rng fuel elements existing k).map
    (fun r => (r.elements, decide (elements.length ≠ r.newIds.length), r.newIds, r.existing, r.next))

/-- Short-circuiting `self.elements.iter().any(|i| &e == i)` of
`add_new_elements`, with the source `PartialEq`: `none` when a
comparison diverges before a `true` is found. -/
def anyEqRust (e : AppElement) : List AppElement → Option Bool
  | [] => some false
  | i :: rest =>
    match eqRust e i with
    | none => none
    | some true => some true
    | some false => anyEqRust e rest

/-- `AppState::add_new_elements(new)`: append every incoming record that
is not already equal (source `PartialEq`) to a stored one; records
appended earlier in the same merge are seen by later comparisons.
`none` when some comparison diverges. -/
def add_new_elements (elements : List AppElement) : List AppElement → Option (List AppElement)
  | [] => some elements
  | e :: rest =>
    match anyEqRust e elements with
    | none => none
    | some true => add_new_elements elements rest
    | some false => add_new_elements (elements ++ [e]) rest

/-! ## XML event model and the two patch passes -/

/-- A `quick_xml` event as the passes see it: a start tag with its decoded
attribute list, an end tag, or a text node (with `trim_text(true)` the
reader never yields whitespace-only text).  Comments and other content
events are handled by the same catch-all arms as text in both passes, so
`text` stands for all of them. -/
inductive XmlEvent where
  | start (tag : String) (attrs : List (String × String))
  | stop (tag : String)
  | text (s : String)
deriving Repr, DecidableEq

/-- The core of the `id`-attribute handling inside `delete_removed`:
`self.elements.iter().position(|e| e.id == Some(v))` followed by
`if self.elements[pos].removed { self.elements.remove(pos); ... }`.
Returns the (possibly) updated store and whether the removal fired. -/
def removeIfTombstoned (v : Nat) : List AppElement → List AppElement × Bool
  | [] => ([], false)
  | e :: rest =>
    if e.id = some v then
      if e.removed then (rest, true) else (e :: rest, false)
    else
      let (r, b) := removeIfTombstoned v rest
      (e :: r, b)

/-- One attribute of the `for_each` over `e.attributes()` in
`delete_removed`; the `Bool` component is the `write` flag. -/
def attrStep (st : List AppElement × Bool) (kv : String × String) : List AppElement × Bool :=
  if kv.1 = "id" then
    match parseU16 kv.2 with
    | some v =>
      let p := removeIfTombstoned v st.1
      if p.2 then (p.1, false) else st
    | none => st
  else st

/-- The whole attribute scan of an `entry` start event in
`delete_removed`: fold `attrStep` with `write` initially `true`. -/
def scanAttrs (elements : List AppElement) (attrs : List (String × String)) :
    List AppElement × Bool :=
  attrs.foldl attrStep (elements, true)

/-- Loop state of `delete_removed`: the store, the `ffwd` flag, the name
of the skipped start tag (`BytesStart::new("")`, i.e. `""`, when none),
the `modified` flag and the events written so far. -/
structure DelAcc where
  elements : List AppElement
  ffwd : Bool
  skip : String
  modified : Bool
  out : List XmlEvent
deriving Repr, DecidableEq

/-- One iteration of the event loop of `delete_removed`, with the source's
match arms in order: skipped start / `entry` start / other start /
end equal to `skip.to_end()` (compared by tag name, and checked before the
`ffwd` guard) / skipped end / other end / skipped other / other. -/
def delStep (acc : DelAcc) (ev : XmlEvent) : DelAcc :=
  match ev with
  | .start tag attrs =>
    if acc.ffwd then acc
    else if tag = "entry" then
      let p := scanAttrs acc.elements attrs
      if p.2 then { acc with elements := p.1, out := acc.out ++ [ev] }
      else { acc with elements := p.1, ffwd := true, skip := tag, modified := true }
    else { acc with out := acc.out ++ [ev] }
  | .stop tag =>
    if tag = acc.skip then { acc with ffwd := false, skip := "" }
    else if acc.ffwd then acc
    else { acc with out := acc.out ++ [ev] }
  | .text _ =>
    if acc.ffwd then acc
    else { acc with out := acc.out ++ [ev] }

/-- `AppState::delete_removed(xml)`: stream the document through
`delStep`; the result carries the updated store, the `modified` flag and
the emitted document. -/
def delete_removed (elements : List AppElement) (evs : List XmlEvent) : DelAcc :=
  evs.foldl delStep ⟨elements, false, "", false, []⟩

/-- `AppElement::write(writer)`: nothing when the identifier is absent,
otherwise the serialized `entry` subtree (the `due` element only when
`due` is present). -/
def writeElement (e : AppElement) : List XmlEvent :=
  match e.id with
  | none => []
  | some i =>
    [.start "entry" [("id", toString i)], .start "name" [], .text e.title, .stop "name",
     .start "description" [], .text e.description, .stop "description"]
    ++ (match e.due with
        | some d => [.start "due" [], .text (toString d), .stop "due"]
        | none => [])
    ++ [.stop "entry"]

/-- One iteration of `insert_created_entries`: on a `registry` start tag
emit it and then, in store order, the serialization of every record
whose identifier is a member of `ids`; every other event is copied. -/
def insStep (elements : List AppElement) (ids : List Nat) (out : List XmlEvent)
    (ev : XmlEvent) : List XmlEvent :=
  match ev with
  | .start tag _ =>
    if tag = "registry" then
      out ++ [ev] ++
        ((elements.filter (fun e => ids.any (fun i => e.id = some i))).map writeElement).flatten
    else out ++ [ev]
  | _ => out ++ [ev]

/-- `AppState::insert_created_entries(xml, ids)`. -/
def insert_created_entries (elements : List AppElement) (evs : List XmlEvent)
    (ids : List Nat) : List XmlEvent :=
  evs.foldl (insStep elements ids) []

/-! ## The sync orchestrator -/

/-- Store state relevant to syncing: the records and the `synced` flag. -/
structure AppState where
  elements : List AppElement
  synced : Bool
deriving Repr, DecidableEq

/-- Outcome of one `sync` run: a normal return `Ok(())`, a surfaced
transport error (`?` on a `reqwest::Error`), or an abnormal stop that is
never surfaced as an error result — the `.unwrap()` panic on a failed
decode, a hung allocation loop, or the diverging merge comparison. -/
inductive SyncResult where
  | ok (st : AppState)
  | fail (e : Nat) (st : AppState)
  | crash (st : AppState)
deriving Repr, DecidableEq

/-- The collaborators of one `sync` run: the transport results (errors
are opaque `Nat` labels), the `quick_xml::de::from_str` decoder of the
post-deletion document (`none` = decode failure), and the random
stream/fuel for the allocator. -/
structure SyncEnv where
  fetchResult : Except Nat (List XmlEvent)
  decode : List XmlEvent → Option (List AppElement)
  uploadResult : Except Nat Nat
  rng : Nat → Nat
  k : Nat
  fuel : Nat

/-- `AppState::sync()` of the source: fetch, deletion pass, decode
(`.unwrap()`!), compute `existing_ids` from the non-removed decoded
records, allocate missing identifiers, insertion pass when any were
added, upload when anything changed, merge the decoded records, set
`synced = true`. -/
def sync (st : AppState) (io : SyncEnv) : SyncResult :=
  match io.fetchResult with
  | .error e => .fail e st
  | .ok result =>
    let d := delete_removed st.elements result
    let st1 : AppState := ⟨d.elements, st.synced⟩
    match io.decode d.out with
    | none => .crash st1
    | some fetched =>
      let existing_ids := (fetched.filter (fun e => !e.removed)).filterMap (fun e => e.id)
      match add_missing_ids st1.elements existing_ids io.rng io.k io.fuel with
      | none => .crash st1
      | some (els, entries_added, new_ids, _, _) =>
        let st2 : AppState := ⟨els, st1.synced⟩
        let _payload :=
          if entries_added then insert_created_entries st2.elements d.out new_ids else d.out
        let merge : AppState → SyncResult := fun s =>
          match add_new_elements s.elements fetched with
          | none => .crash s
          | some els2 => .ok ⟨els2, true⟩
        if d.modified || entries_added then
          match io.uploadResult with
          | .error e => .fail e st2
          | .ok _ => merge st2
        else merge st2

/-! ## Observation language: flat documents, reachable stores -/

/-- A flat document building block: an `entry` element (start tag with its
attributes, the inner events, the matching end tag) or any single event
outside an entry. -/
inductive Chunk where
  | entry (attrs : List (String × String)) (body : List XmlEvent)
  | plain (ev : XmlEvent)
deriving Repr, DecidableEq

/-- Event stream of a chunk. -/
def Chunk.flatten : Chunk → List XmlEvent
  | .entry attrs body => XmlEvent.start "entry" attrs :: body ++ [XmlEvent.stop "entry"]
  | .plain ev => [ev]

/-- Event stream of a flat document. -/
def flattenDoc (d : List Chunk) : List XmlEvent := (d.map Chunk.flatten).flatten

/-- An event that may sit outside an `entry` element, or inside one of a
flat document: not an `entry` start or end (entries are not nested — the
assumption the source's skip matching relies on), and not an end tag with
the empty name (no XML tag is nameless; the empty name is reserved for
the engine's `BytesStart::new("")` sentinel). -/
def evOk : XmlEvent → Bool
  | .start tag _ => tag ≠ "entry"
  | .stop tag => tag ≠ "entry" && tag ≠ ""
  | .text _ => true

/-- A well-formed chunk of a flat document: inner events satisfy `evOk`,
and an entry carries at most one `id` attribute (XML forbids duplicated
attribute names; `quick_xml` rejects the duplicates). -/
def chunkOk : Chunk → Bool
  | .entry attrs body => decide (attrs.countP (fun kv => kv.1 = "id") ≤ 1) && body.all evOk
  | .plain ev => evOk ev

/-- A well-formed flat document. -/
def docOk (d : List Chunk) : Bool := d.all chunkOk

/-- The value of the (unique) `id` attribute, when present. -/
def idLookup (attrs : List (String × String)) : Option String :=
  (attrs.find? (fun kv => kv.1 = "id")).map (fun kv => kv.2)

/-- The parsed identifier of an entry chunk, when its `id` attribute is
present and parses. -/
def entryIdOf : Chunk → Option Nat
  | .entry attrs _ => (idLookup attrs).bind parseU16
  | .plain _ => none

/-- Does this event open an `entry` subtree carrying identifier `v`? -/
def isEntryStartWithId (v : Nat) : XmlEvent → Bool
  | .start tag attrs => tag = "entry" && attrs.any (fun kv => kv.1 = "id" && parseU16 kv.2 = some v)
  | _ => false

/-- Does this event open the `registry` root container? -/
def isRegistryStart : XmlEvent → Bool
  | .start tag _ => tag = "registry"
  | _ => false

/-- Chunk-level restatement of the deletion pass: thread the store through
the chunks; an entry chunk whose attribute scan fires is dropped and
erases its record, everything else is kept verbatim.  Result:
(store, kept chunks, changed flag). -/
def specDelete (elements : List AppElement) : List Chunk → List AppElement × List Chunk × Bool
  | [] => (elements, [], false)
  | .plain ev :: rest =>
    let r := specDelete elements rest
    (r.1, .plain ev :: r.2.1, r.2.2)
  | .entry attrs body :: rest =>
    let p := scanAttrs elements attrs
    let r := specDelete p.1 rest
    if p.2 then (r.1, .entry attrs body :: r.2.1, r.2.2)
    else (r.1, r.2.1, true)

/-- Identifiers of the non-removed records, in store order (the spec's
uniqueness invariant quantifies over these). -/
def nonRemovedIds (l : List AppElement) : List Nat :=
  (l.filter (fun e => !e.removed)).filterMap (fun e => e.id)

/-- Number of records carrying identifier `v`. -/
def countId (v : Nat) (l : List AppElement) : Nat :=
  (l.filter (fun e => e.id = some v)).length

/-- Stores reachable from the empty session store through the operations
the program performs on `elements`: `push` of a fresh identifier-less
record (the add dialog builds `AppElement::new(None, title, description,
None)`), tombstoning via `remove`, the deletion pass, identifier
allocation via `add_missing_ids` (against an arbitrary remote-derived
`existing_ids` seed, as in `sync`), and merging decoded remote records
(whose `removed` flag is always `false`, `#[serde(skip)]`). -/
inductive Reachable : List AppElement → Prop where
  | empty : Reachable []
  | push (t d : String) {l : List AppElement} : Reachable l →
      Reachable (push l (some (AppElement.new none t d none)))
  | remove (v : Nat) {l : List AppElement} : Reachable l → Reachable (remove v l).1
  | delete (evs : List XmlEvent) {l : List AppElement} : Reachable l →
      Reachable (delete_removed l evs).elements
  | allocate {l l' : List AppElement} {ex ex' ns : List Nat} {rng : Nat → Nat}
      {k fuel k' : Nat} {b : Bool} : Reachable l →
      add_missing_ids l ex rng k fuel = some (l', b, ns, ex', k') → Reachable l'
  | merge {l l' new : List AppElement} : Reachable l →
      (∀ e ∈ new, e.removed = false) → add_new_elements l new = some l' → Reachable l'

/-- Same operations, but every allocation is seeded with an existing-id
set that covers the store's own non-removed identifiers. -/
inductive ReachableSeeded : List AppElement → Prop where
  | empty : ReachableSeeded []
  | push (t d : String) {l : List AppElement} : ReachableSeeded l →
      ReachableSeeded (push l (some (AppElement.new none t d none)))
  | remove (v : Nat) {l : List AppElement} : ReachableSeeded l →
      ReachableSeeded (remove v l).1
  | delete (evs : List XmlEvent) {l : List AppElement} : ReachableSeeded l →
      ReachableSeeded (delete_removed l evs).elements
  | allocate {l l' : List AppElement} {ex ex' ns : List Nat} {rng : Nat → Nat}
      {k fuel k' : Nat} {b : Bool} : ReachableSeeded l →
      (∀ v ∈ nonRemovedIds l, v ∈ ex) →
      add_missing_ids l ex rng k fuel = some (l', b, ns, ex', k') → ReachableSeeded l'
  | merge {l l' new : List AppElement} : ReachableSeeded l →
      (∀ e ∈ new, e.removed = false) → add_new_elements l new = some l' → ReachableSeeded l'

/-! ## Helper lemmas -/

theorem genLoop_sound {existing : List Nat} {rng : Nat → Nat} :
    ∀ {fuel k v k'}, genLoop existing rng fuel k = some (v, k') → v ≠ 0 ∧ v ∉ existing := by
  intro fuel
  induction fuel with
  | zero => intro k v k' h; simp [genLoop] at h
  | succ f ih =>
    intro k v k' h
    rw [genLoop] at h
    by_cases hc : sampleU16 rng k = 0 ∨ sampleU16 rng k ∈ existing
    · rw [if_pos hc] at h; exact ih h
    · rw [if_neg hc] at h
      push_neg at hc
      cases h
      exact hc

theorem allocBatch_sound {rng : Nat → Nat} {fuel : Nat} :
    ∀ (l : List AppElement) (existing : List Nat) (k : Nat) (r : AllocResult),
      allocBatch rng fuel l existing k = some r →
      r.existing = existing ++ r.newIds ∧ (∀ u ∈ r.newIds, u ∉ existing ∧ u ≠ 0) ∧
        r.newIds.Nodup := by
  intro l
  induction l with
  | nil =>
    intro existing k r h
    cases h
    simp
  | cons e rest ih =>
    intro existing k r h
    rw [allocBatch] at h
    cases he : e.id with
    | some i =>
      rw [he] at h
      simp only [Option.map_eq_some'] at h
      obtain ⟨r1, hr1, hr⟩ := h
      obtain ⟨hex, hmem, hnd⟩ := ih existing k r1 hr1
      subst hr
      exact ⟨hex, hmem, hnd⟩
    | none =>
      rw [he] at h
      cases hg : genLoop existing rng fuel k with
      | none => rw [hg] at h; simp at h
      | some p =>
        rw [hg] at h
        obtain ⟨v, k1⟩ := p
        simp only [Option.map_eq_some'] at h
        obtain ⟨r1, hr1, hr⟩ := h
        obtain ⟨hv0, hvex⟩ := genLoop_sound hg
        obtain ⟨hex, hmem, hnd⟩ := ih (existing ++ [v]) k1 r1 hr1
        subst hr
        refine ⟨?_, ?_, ?_⟩
        · simp only [hex]
          simp [List.append_assoc]
        · intro u hu
          rcases List.mem_cons.mp hu with h1 | h1
          · subst h1; exact ⟨hvex, hv0⟩
          · have := (hmem u h1).1
            constructor
            · intro hc; exact this (List.mem_append_left _ hc)
            · exact (hmem u h1).2
        · refine List.nodup_cons.mpr ⟨?_, hnd⟩
          intro hc
          have := (hmem v hc).1
          exact this (List.mem_append_right _ (List.mem_singleton.mpr rfl))

theorem anyEqRust_eq {e : AppElement} {v : Nat} (h : e.id = some v) :
    ∀ l : List AppElement, anyEqRust e l = some (l.any (fun i => decide (some v = i.id))) := by
  intro l
  induction l with
  | nil => rfl
  | cons i rest ih =>
    rw [anyEqRust, eqRust, h]
    by_cases hiv : some v = i.id
    · simp [hiv]
    · simp only [List.any_cons]
      rw [decide_eq_false hiv]
      simpa [hiv] using ih

theorem countId_append (v : Nat) (l1 l2 : List AppElement) :
    countId v (l1 ++ l2) = countId v l1 + countId v l2 := by
  simp [countId, List.filter_append]

theorem flattenDoc_cons (c : Chunk) (d : List Chunk) :
    flattenDoc (c :: d) = c.flatten ++ flattenDoc d := by
  simp [flattenDoc]

theorem flattenDoc_append (d1 d2 : List Chunk) :
    flattenDoc (d1 ++ d2) = flattenDoc d1 ++ flattenDoc d2 := by
  simp [flattenDoc]

theorem removeIfTombstoned_no_fire {w : Nat} :
    ∀ {l : List AppElement}, (∀ e ∈ l, e.removed = true → e.id ≠ some w) →
      removeIfTombstoned w l = (l, false) := by
  intro l
  induction l with
  | nil => intro _; rfl
  | cons e rest ih =>
    intro h
    rw [removeIfTombstoned]
    by_cases hid : e.id = some w
    · have : e.removed = false := by
        cases hr : e.removed
        · rfl
        · exact absurd hid (h e (List.mem_cons_self e rest) hr)
      rw [if_pos hid, this]
      simp
    · rw [if_neg hid, ih (fun x hx => h x (List.mem_cons_of_mem e hx))]

theorem removeIfTombstoned_fires {v : Nat} {r : AppElement}
    (hr : r.id = some v) (hrem : r.removed = true) :
    ∀ (l1 l2 : List AppElement), (∀ e ∈ l1, e.id ≠ some v) →
      removeIfTombstoned v (l1 ++ r :: l2) = (l1 ++ l2, true) := by
  intro l1
  induction l1 with
  | nil =>
    intro l2 _
    rw [List.nil_append, removeIfTombstoned, if_pos hr, hrem]
    simp
  | cons e rest ih =>
    intro l2 h
    rw [List.cons_append, removeIfTombstoned,
      if_neg (h e (List.mem_cons_self e rest)),
      ih l2 (fun x hx => h x (List.mem_cons_of_mem e hx))]
    rfl

theorem removeIfTombstoned_find_none {v : Nat} {l : List AppElement}
    (h : l.find? (fun e => decide (e.id = some v)) = none) :
    removeIfTombstoned v l = (l, false) := by
  refine removeIfTombstoned_no_fire ?_
  intro e he _
  have := List.find?_eq_none.mp h e he
  simpa using this

theorem removeIfTombstoned_find_not_removed {v : Nat} {r : AppElement} (hrem : r.removed = false) :
    ∀ {l : List AppElement}, l.find? (fun e => decide (e.id = some v)) = some r →
      removeIfTombstoned v l = (l, false) := by
  intro l
  induction l with
  | nil => intro h; simp at h
  | cons e rest ih =>
    intro h
    by_cases hid : e.id = some v
    · rw [List.find?_cons_of_pos _ (by simpa using hid)] at h
      injection h with h
      subst h
      simp [removeIfTombstoned, hid, hrem]
    · rw [List.find?_cons_of_neg _ (by simpa using hid)] at h
      rw [removeIfTombstoned, if_neg hid, ih h]

theorem attrStep_id_free {st : List AppElement × Bool} {kv : String × String}
    (h : kv.1 ≠ "id") : attrStep st kv = st := by
  rw [attrStep, if_neg h]

theorem foldl_attrStep_id_free :
    ∀ {attrs : List (String × String)} {st : List AppElement × Bool},
      (∀ kv ∈ attrs, kv.1 ≠ "id") → attrs.foldl attrStep st = st := by
  intro attrs
  induction attrs with
  | nil => intro st _; rfl
  | cons kv rest ih =>
    intro st h
    rw [List.foldl_cons, attrStep_id_free (h kv (List.mem_cons_self kv rest))]
    exact ih (fun x hx => h x (List.mem_cons_of_mem kv hx))

theorem countP_le_one_tail {attrs : List (String × String)} {kv : String × String}
    (h : (kv :: attrs).countP (fun kv => decide (kv.1 = "id")) ≤ 1) (hkv : kv.1 = "id") :
    ∀ x ∈ attrs, x.1 ≠ "id" := by
  intro x hx hc
  rw [List.countP_cons] at h
  have h1 : (decide (kv.1 = "id") : Bool) = true := by simpa using hkv
  rw [h1] at h
  simp only [if_true] at h
  have : 1 ≤ attrs.countP (fun kv => decide (kv.1 = "id")) := by
    refine List.countP_pos_iff.mpr ⟨x, hx, ?_⟩
    simpa using hc
  omega

/-- Under the single-`id`-attribute discipline of well-formed XML, the
attribute scan of `delete_removed` behaves as one lookup of the parsed
identifier. -/
theorem scanAttrs_char {els : List AppElement} :
    ∀ {attrs : List (String × String)},
      attrs.countP (fun kv => decide (kv.1 = "id")) ≤ 1 →
      scanAttrs els attrs =
        (match (idLookup attrs).bind parseU16 with
         | none => (els, true)
         | some v =>
           let p := removeIfTombstoned v els
           if p.2 then (p.1, false) else (els, true)) := by
  intro attrs
  induction attrs with
  | nil => intro _; rfl
  | cons kv rest ih =>
    intro h
    by_cases hkv : kv.1 = "id"
    · have hrest : ∀ x ∈ rest, x.1 ≠ "id" := countP_le_one_tail h hkv
      rw [scanAttrs, List.foldl_cons, foldl_attrStep_id_free hrest]
      have hlook : idLookup (kv :: rest) = some kv.2 := by
        rw [idLookup, List.find?_cons_of_pos _ (by simpa using hkv)]
        rfl
      rw [hlook, attrStep, if_pos hkv]
      cases hp : parseU16 kv.2 with
      | none => simp [hp]
      | some v => simp [hp]
    · have hlook : idLookup (kv :: rest) = idLookup rest := by
        rw [idLookup, idLookup, List.find?_cons_of_neg _ (by simpa using hkv)]
      have h1 : rest.countP (fun kv => decide (kv.1 = "id")) ≤ 1 := by
        rw [List.countP_cons] at h
        omega
      rw [scanAttrs, List.foldl_cons, attrStep_id_free hkv, hlook]
      exact ih h1

theorem scanAttrs_write_true {els : List AppElement} {attrs : List (String × String)}
    (h : attrs.countP (fun kv => decide (kv.1 = "id")) ≤ 1)
    (hw : (scanAttrs els attrs).2 = true) : (scanAttrs els attrs).1 = els := by
  rw [scanAttrs_char h] at hw ⊢
  cases hl : (idLookup attrs).bind parseU16 with
  | none => rfl
  | some v =>
    rw [hl] at hw
    by_cases hp : (removeIfTombstoned v els).2 = true
    · simp [hp] at hw
    · simp [hp]

theorem delStep_copy {ev : XmlEvent} {els : List AppElement} {m : Bool} {out : List XmlEvent}
    (hok : evOk ev = true) :
    delStep ⟨els, false, "", m, out⟩ ev = ⟨els, false, "", m, out ++ [ev]⟩ := by
  cases ev with
  | start tag attrs =>
    have : tag ≠ "entry" := by simpa [evOk] using hok
    simp [delStep, this]
  | stop tag =>
    have h1 : tag ≠ "entry" ∧ tag ≠ "" := by simpa [evOk] using hok
    simp [delStep, h1.2]
  | text s => simp [delStep]

theorem delStep_skipAll {ev : XmlEvent} {els : List AppElement} {m : Bool}
    {out : List XmlEvent} (hok : evOk ev = true) :
    delStep ⟨els, true, "entry", m, out⟩ ev = ⟨els, true, "entry", m, out⟩ := by
  cases ev with
  | start tag attrs => simp [delStep]
  | stop tag =>
    have h1 : tag ≠ "entry" ∧ tag ≠ "" := by simpa [evOk] using hok
    simp [delStep, h1.1]
  | text s => simp [delStep]

theorem foldl_delStep_copy :
    ∀ {body : List XmlEvent} {els : List AppElement} {m : Bool} {out : List XmlEvent},
      body.all evOk = true →
      body.foldl delStep ⟨els, false, "", m, out⟩ = ⟨els, false, "", m, out ++ body⟩ := by
  intro body
  induction body with
  | nil => intro els m out _; simp
  | cons ev rest ih =>
    intro els m out hall
    have hok : evOk ev = true :=
      List.all_eq_true.mp hall ev (List.mem_cons_self ev rest)
    have hrest : rest.all evOk = true :=
      List.all_eq_true.mpr (fun x hx => List.all_eq_true.mp hall x (List.mem_cons_of_mem ev hx))
    rw [List.foldl_cons, delStep_copy hok, ih hrest]
    simp

theorem foldl_delStep_skipAll :
    ∀ {body : List XmlEvent} {els : List AppElement} {m : Bool} {out : List XmlEvent},
      body.all evOk = true →
      body.foldl delStep ⟨els, true, "entry", m, out⟩ = ⟨els, true, "entry", m, out⟩ := by
  intro body
  induction body with
  | nil => intro els m out _; rfl
  | cons ev rest ih =>
    intro els m out hall
    have hok : evOk ev = true :=
      List.all_eq_true.mp hall ev (List.mem_cons_self ev rest)
    have hrest : rest.all evOk = true :=
      List.all_eq_true.mpr (fun x hx => List.all_eq_true.mp hall x (List.mem_cons_of_mem ev hx))
    rw [List.foldl_cons, delStep_skipAll hok, ih hrest]

/-- Processing one well-formed chunk from copying state: a kept entry (or
a plain event) is emitted verbatim, a dropped entry updates the store,
sets `modified` and emits nothing; either way the loop is back in
copying state afterwards. -/
theorem foldl_delStep_chunk {c : Chunk} {els : List AppElement} {m : Bool}
    {out : List XmlEvent} (hok : chunkOk c = true) :
    c.flatten.foldl delStep ⟨els, false, "", m, out⟩ =
      (match c with
       | .plain _ => ⟨els, false, "", m, out ++ c.flatten⟩
       | .entry attrs _ =>
         let p := scanAttrs els attrs
         if p.2 then ⟨p.1, false, "", m, out ++ c.flatten⟩
         else ⟨p.1, false, "", true, out⟩) := by
  cases c with
  | plain ev =>
    have : evOk ev = true := by simpa [chunkOk] using hok
    simp only [Chunk.flatten, List.foldl_cons, List.foldl_nil]
    rw [delStep_copy this]
  | entry attrs body =>
    have hpair : attrs.countP (fun kv => decide (kv.1 = "id")) ≤ 1 ∧
        ∀ x ∈ body, evOk x = true := by
      simpa [chunkOk] using hok
    have hbody : body.all evOk = true := List.all_eq_true.mpr hpair.2
    simp only [Chunk.flatten, List.cons_append, List.foldl_cons]
    have hstep : delStep ⟨els, false, "", m, out⟩ (.start "entry" attrs) =
        (let p := scanAttrs els attrs
         if p.2 then ⟨p.1, false, "", m, out ++ [.start "entry" attrs]⟩
         else ⟨p.1, true, "entry", true, out⟩) := by
      rw [delStep]
      by_cases hw : (scanAttrs els attrs).2 = true
      · simp [hw]
      · simp [hw]
    rw [hstep]
    by_cases hw : (scanAttrs els attrs).2 = true
    · simp only [hw, if_true]
      rw [List.foldl_append, foldl_delStep_copy hbody]
      simp only [List.foldl_cons, List.foldl_nil]
      have hstop : delStep
          ⟨(scanAttrs els attrs).1, false, "", m,
            (out ++ [XmlEvent.start "entry" attrs]) ++ body⟩ (.stop "entry") =
          ⟨(scanAttrs els attrs).1, false, "", m,
            ((out ++ [XmlEvent.start "entry" attrs]) ++ body) ++ [.stop "entry"]⟩ := by
        simp [delStep]
      rw [hstop]
      simp
    · simp only [hw, Bool.false_eq_true, if_false]
      rw [List.foldl_append, foldl_delStep_skipAll hbody]
      simp only [List.foldl_cons, List.foldl_nil]
      rw [delStep]
      simp

theorem foldl_delStep_doc :
    ∀ {d : List Chunk} {els : List AppElement} {m : Bool} {out : List XmlEvent},
      docOk d = true →
      (flattenDoc d).foldl delStep ⟨els, false, "", m, out⟩ =
        ⟨(specDelete els d).1, false, "", m || (specDelete els d).2.2,
          out ++ flattenDoc (specDelete els d).2.1⟩ := by
  intro d
  induction d with
  | nil =>
    intro els m out _
    simp [flattenDoc, specDelete]
  | cons c rest ih =>
    intro els m out hdoc
    have hcok : chunkOk c = true :=
      List.all_eq_true.mp hdoc c (List.mem_cons_self c rest)
    have hrok : docOk rest = true :=
      List.all_eq_true.mpr (fun x hx => List.all_eq_true.mp hdoc x (List.mem_cons_of_mem c hx))
    rw [flattenDoc_cons, List.foldl_append, foldl_delStep_chunk hcok]
    cases c with
    | plain ev =>
      rw [ih hrok]
      simp [specDelete, flattenDoc_cons, Chunk.flatten]
    | entry attrs body =>
      by_cases hw : (scanAttrs els attrs).2 = true
      · simp only [hw, if_true]
        rw [ih hrok]
        simp [specDelete, hw, flattenDoc_cons]
      · simp only [hw, Bool.false_eq_true, if_false]
        rw [ih hrok]
        simp [specDelete, hw, flattenDoc_cons]

/-- The whole deletion pass on a well-formed flat document equals its
chunk-level restatement `specDelete`. -/
theorem delete_removed_doc {els : List AppElement} {d : List Chunk} (h : docOk d = true) :
    delete_removed els (flattenDoc d) =
      ⟨(specDelete els d).1, false, "", (specDelete els d).2.2,
        flattenDoc (specDelete els d).2.1⟩ := by
  rw [delete_removed, foldl_delStep_doc h]
  simp

theorem specDelete_append :
    ∀ {d1 : List Chunk} (d2 : List Chunk) (els : List AppElement),
      specDelete els (d1 ++ d2) =
        ((specDelete (specDelete els d1).1 d2).1,
         (specDelete els d1).2.1 ++ (specDelete (specDelete els d1).1 d2).2.1,
         (specDelete els d1).2.2 || (specDelete (specDelete els d1).1 d2).2.2) := by
  intro d1
  induction d1 with
  | nil => intro d2 els; simp [specDelete]
  | cons c rest ih =>
    intro d2 els
    cases c with
    | plain ev =>
      simp only [List.cons_append, specDelete, List.append_eq]
      rw [ih]
    | entry attrs body =>
      simp only [List.cons_append, specDelete, List.append_eq]
      rw [ih]
      by_cases hp : (scanAttrs els attrs).2 = true
      · simp [hp, Bool.or_assoc]
      · simp [hp, Bool.or_assoc]

/-- Chunks whose parsed identifier never triggers a tombstoned removal
are all kept, and the store is untouched. -/
theorem specDelete_keep :
    ∀ {d : List Chunk} {els : List AppElement}, docOk d = true →
      (∀ c ∈ d, ∀ v, entryIdOf c = some v → removeIfTombstoned v els = (els, false)) →
      specDelete els d = (els, d, false) := by
  intro d
  induction d with
  | nil => intro els _ _; rfl
  | cons c rest ih =>
    intro els hdoc hkeep
    have hcok : chunkOk c = true :=
      List.all_eq_true.mp hdoc c (List.mem_cons_self c rest)
    have hrok : docOk rest = true :=
      List.all_eq_true.mpr (fun x hx => List.all_eq_true.mp hdoc x (List.mem_cons_of_mem c hx))
    have hrest := ih hrok
      (fun x hx v hv => hkeep x (List.mem_cons_of_mem c hx) v hv)
    cases c with
    | plain ev =>
      rw [specDelete, hrest]
    | entry attrs body =>
      have hcnt : attrs.countP (fun kv => decide (kv.1 = "id")) ≤ 1 := by
        have hpair : attrs.countP (fun kv => decide (kv.1 = "id")) ≤ 1 ∧
            ∀ x ∈ body, evOk x = true := by
          simpa [chunkOk] using hcok
        exact hpair.1
      have hscan : scanAttrs els attrs = (els, true) := by
        rw [scanAttrs_char hcnt]
        cases hl : (idLookup attrs).bind parseU16 with
        | none => rfl
        | some v =>
          have := hkeep (.entry attrs body) (List.mem_cons_self _ rest) v
            (by simpa [entryIdOf] using hl)
          simp [this]
      rw [specDelete, hscan, hrest]
      simp

theorem isEntryStartWithId_false_of_evOk {v : Nat} {ev : XmlEvent}
    (h : evOk ev = true) : isEntryStartWithId v ev = false := by
  cases ev with
  | start tag attrs =>
    have : tag ≠ "entry" := by simpa [evOk] using h
    simp [isEntryStartWithId, this]
  | stop tag => rfl
  | text s => rfl

/-- With at most one `id` attribute, an attribute satisfying the entry-id
observation determines the value of the id lookup. -/
theorem any_id_unique {v : Nat} :
    ∀ {attrs : List (String × String)},
      attrs.countP (fun kv => decide (kv.1 = "id")) ≤ 1 →
      attrs.any (fun kv => kv.1 = "id" && parseU16 kv.2 = some v) = true →
      (idLookup attrs).bind parseU16 = some v := by
  intro attrs
  induction attrs with
  | nil => intro _ h; simp at h
  | cons kv rest ih =>
    intro hcnt h
    by_cases hkv : kv.1 = "id"
    · have hrest : ∀ x ∈ rest, x.1 ≠ "id" := countP_le_one_tail hcnt hkv
      have hparse : parseU16 kv.2 = some v := by
        rcases List.any_eq_true.mp h with ⟨x, hx, hxp⟩
        rcases List.mem_cons.mp hx with h1 | h1
        · subst h1
          have := (Bool.and_eq_true _ _).mp hxp
          simpa using this.2
        · have := (Bool.and_eq_true _ _).mp hxp
          exact absurd (by simpa using this.1) (hrest x h1)
      have hlook : idLookup (kv :: rest) = some kv.2 := by
        rw [idLookup, List.find?_cons_of_pos _ (by simpa using hkv)]
        rfl
      rw [hlook]
      simpa using hparse
    · have hlook : idLookup (kv :: rest) = idLookup rest := by
        rw [idLookup, idLookup, List.find?_cons_of_neg _ (by simpa using hkv)]
      have h1 : rest.countP (fun kv => decide (kv.1 = "id")) ≤ 1 := by
        rw [List.countP_cons] at hcnt
        omega
      have h2 : rest.any (fun kv => kv.1 = "id" && parseU16 kv.2 = some v) = true := by
        rcases List.any_eq_true.mp h with ⟨x, hx, hxp⟩
        rcases List.mem_cons.mp hx with he | he
        · subst he
          have := (Bool.and_eq_true _ _).mp hxp
          exact absurd (by simpa using this.1) hkv
        · exact List.any_eq_true.mpr ⟨x, he, hxp⟩
      rw [hlook]
      exact ih h1 h2

/-! ## Claims -/

/-- C1 (amended): on a well-formed flat document in which the identifier
`v` occurs exactly once as an entry id, and a store in which exactly one
record carries `v` — the tombstoned record `r` — and no other record is
tombstoned, the deletion pass returns the document with exactly `r`'s
entry subtree excised (the rest event-identical, i.e. byte-equivalent
modulo insignificant whitespace, and in order), reports it as modified,
removes `r` from the store, and the output contains no entry start tag
carrying identifier `v`.  (As stated over arbitrary documents the claim
fails: see the counterexample, where a second occurrence of the same
identifier survives because the record is erased from the store when the
first occurrence is excised.) -/
theorem delete_removed_unique_tombstone
    {d1 d2 : List Chunk} {attrs : List (String × String)} {body : List XmlEvent}
    {el1 el2 : List AppElement} {r : AppElement} {v : Nat} {s : String}
    (hdoc : docOk (d1 ++ Chunk.entry attrs body :: d2) = true)
    (hid : idLookup attrs = some s) (hparse : parseU16 s = some v)
    (hr : r.id = some v) (hrem : r.removed = true)
    (hothers : ∀ e ∈ el1 ++ el2, e.removed = false ∧ e.id ≠ some v)
    (hd : ∀ c ∈ d1 ++ d2, entryIdOf c ≠ some v) :
    delete_removed (el1 ++ r :: el2) (flattenDoc (d1 ++ Chunk.entry attrs body :: d2)) =
      ⟨el1 ++ el2, false, "", true, flattenDoc (d1 ++ d2)⟩
    ∧ ∀ ev ∈ flattenDoc (d1 ++ d2), isEntryStartWithId v ev = false := by
  have hall := List.all_eq_true.mp hdoc
  have hd1 : docOk d1 = true :=
    List.all_eq_true.mpr (fun x hx => hall x (List.mem_append_left _ hx))
  have hc : chunkOk (Chunk.entry attrs body) = true :=
    hall _ (List.mem_append_right _ (List.mem_cons_self _ _))
  have hd2 : docOk d2 = true :=
    List.all_eq_true.mpr
      (fun x hx => hall x (List.mem_append_right _ (List.mem_cons_of_mem _ hx)))
  have hcnt : attrs.countP (fun kv => decide (kv.1 = "id")) ≤ 1 := by
    have hpair : attrs.countP (fun kv => decide (kv.1 = "id")) ≤ 1 ∧
        ∀ x ∈ body, evOk x = true := by simpa [chunkOk] using hc
    exact hpair.1
  have hkeep1 : specDelete (el1 ++ r :: el2) d1 = (el1 ++ r :: el2, d1, false) := by
    refine specDelete_keep hd1 ?_
    intro c hcm w hw
    refine removeIfTombstoned_no_fire ?_
    intro e he hrm
    rcases List.mem_append.mp he with h1 | h1
    · exact absurd hrm (by simp [(hothers e (List.mem_append_left _ h1)).1])
    · rcases List.mem_cons.mp h1 with h2 | h2
      · subst h2
        rw [hr]
        intro hvw
        have hwv : w = v := by
          have := Option.some.inj hvw
          exact this.symm
        subst hwv
        exact hd c (List.mem_append_left _ hcm) hw
      · exact absurd hrm (by simp [(hothers e (List.mem_append_right _ h2)).1])
  have hscan : scanAttrs (el1 ++ r :: el2) attrs = (el1 ++ el2, false) := by
    rw [scanAttrs_char hcnt, hid]
    have hfires : removeIfTombstoned v (el1 ++ r :: el2) = (el1 ++ el2, true) :=
      removeIfTombstoned_fires hr hrem el1 el2
        (fun e he => (hothers e (List.mem_append_left _ he)).2)
    simp [hparse, hfires]
  have hkeep2 : specDelete (el1 ++ el2) d2 = (el1 ++ el2, d2, false) := by
    refine specDelete_keep hd2 ?_
    intro c hcm w hw
    refine removeIfTombstoned_no_fire ?_
    intro e he hrm
    exact absurd hrm (by simp [(hothers e he).1])
  have hspec : specDelete (el1 ++ r :: el2) (d1 ++ Chunk.entry attrs body :: d2) =
      (el1 ++ el2, d1 ++ d2, true) := by
    rw [specDelete_append, hkeep1]
    simp only [specDelete, hscan, hkeep2]
    simp
  constructor
  · rw [delete_removed_doc hdoc, hspec]
  · intro ev hev
    rw [flattenDoc] at hev
    rcases List.mem_flatten.mp hev with ⟨l, hl, hevl⟩
    rcases List.mem_map.mp hl with ⟨c, hcm, hfl⟩
    subst hfl
    have hcok : chunkOk c = true := by
      rcases List.mem_append.mp hcm with h1 | h1
      · exact List.all_eq_true.mp hd1 c h1
      · exact List.all_eq_true.mp hd2 c h1
    cases c with
    | plain ev' =>
      have : ev = ev' := by simpa [Chunk.flatten] using hevl
      subst this
      exact isEntryStartWithId_false_of_evOk (by simpa [chunkOk] using hcok)
    | entry attrs' body' =>
      have hpair : attrs'.countP (fun kv => decide (kv.1 = "id")) ≤ 1 ∧
          ∀ x ∈ body', evOk x = true := by simpa [chunkOk] using hcok
      rw [Chunk.flatten] at hevl
      rcases List.mem_cons.mp hevl with h1 | h1
      · subst h1
        rcases Bool.eq_false_or_eq_true (isEntryStartWithId v (.start "entry" attrs')) with
          hb | hb
        case inr => exact hb
        case inl =>
          exfalso
          rw [isEntryStartWithId] at hb
          have hany : attrs'.any (fun kv => kv.1 = "id" && parseU16 kv.2 = some v) = true :=
            ((Bool.and_eq_true _ _).mp hb).2
          have := any_id_unique hpair.1 hany
          exact hd _ hcm (by simpa [entryIdOf] using this)
      · rcases List.mem_append.mp h1 with h2 | h2
        · exact isEntryStartWithId_false_of_evOk (hpair.2 ev h2)
        · have : ev = XmlEvent.stop "entry" := by simpa using h2
          subst this
          rfl

/-- Witness for the C1 theorem at a concrete input: store `[{id: 5,
removed}]` and a document holding a single entry subtree with id 5; the
pass excises the subtree and the record. -/
theorem delete_removed_unique_tombstone_witness :
    delete_removed [⟨some 5, "B", "d", none, true⟩]
        (flattenDoc [Chunk.entry [("id", "5")] []]) =
      ⟨[], false, "", true, flattenDoc []⟩ :=
  (@delete_removed_unique_tombstone [] [] [("id", "5")] [] [] []
    ⟨some 5, "B", "d", none, true⟩ 5 "5"
    (by decide) rfl (by decide) rfl rfl
    (by intro e he; simp at he) (by intro c hc; simp at hc)).1

/-- Counterexample to C1 as stated: when the tombstoned identifier occurs
twice in the document, the first occurrence is excised and the record is
removed from the store, so the second occurrence no longer matches any
tombstone and survives — the output still contains an entry subtree with
identifier 5. -/
theorem delete_removed_duplicate_id_survives :
    (delete_removed [⟨some 5, "B", "d", none, true⟩]
        [XmlEvent.start "entry" [("id", "5")], XmlEvent.stop "entry",
         XmlEvent.start "entry" [("id", "5")], XmlEvent.stop "entry"]).out
      = [XmlEvent.start "entry" [("id", "5")], XmlEvent.stop "entry"]
    ∧ (delete_removed [⟨some 5, "B", "d", none, true⟩]
        [XmlEvent.start "entry" [("id", "5")], XmlEvent.stop "entry",
         XmlEvent.start "entry" [("id", "5")], XmlEvent.stop "entry"]).out.any
        (isEntryStartWithId 5) = true := by
  constructor
  · decide
  · decide

/-- C4: an entry start event whose `id` attribute is absent, unparsable,
not found among the store's records, or found on a record that is not
tombstoned, is emitted unchanged together with its whole subtree, the
store is untouched by it, and the pass continues normally (none of these
conditions is an error). -/
theorem delete_removed_passthrough
    {attrs : List (String × String)} {body : List XmlEvent} {d : List Chunk}
    {elements : List AppElement}
    (hdoc : docOk (Chunk.entry attrs body :: d) = true)
    (hcond : idLookup attrs = none
      ∨ (∃ s, idLookup attrs = some s ∧ parseU16 s = none)
      ∨ (∃ s w, idLookup attrs = some s ∧ parseU16 s = some w ∧
          elements.find? (fun e => decide (e.id = some w)) = none)
      ∨ (∃ s w e, idLookup attrs = some s ∧ parseU16 s = some w ∧
          elements.find? (fun e => decide (e.id = some w)) = some e ∧ e.removed = false)) :
    delete_removed elements (flattenDoc (Chunk.entry attrs body :: d)) =
      ⟨(specDelete elements d).1, false, "", (specDelete elements d).2.2,
        Chunk.flatten (.entry attrs body) ++ flattenDoc (specDelete elements d).2.1⟩ := by
  have hall := List.all_eq_true.mp hdoc
  have hc : chunkOk (Chunk.entry attrs body) = true := hall _ (List.mem_cons_self _ _)
  have hdr : docOk d = true :=
    List.all_eq_true.mpr (fun x hx => hall x (List.mem_cons_of_mem _ hx))
  have hcnt : attrs.countP (fun kv => decide (kv.1 = "id")) ≤ 1 := by
    have hpair : attrs.countP (fun kv => decide (kv.1 = "id")) ≤ 1 ∧
        ∀ x ∈ body, evOk x = true := by simpa [chunkOk] using hc
    exact hpair.1
  have hscan : scanAttrs elements attrs = (elements, true) := by
    rw [scanAttrs_char hcnt]
    rcases hcond with h | ⟨s, hs, hp⟩ | ⟨s, w, hs, hp, hf⟩ | ⟨s, w, e, hs, hp, hf, he⟩
    · simp [h]
    · simp [hs, hp]
    · rw [hs]
      simp [hp, removeIfTombstoned_find_none hf]
    · rw [hs]
      simp [hp, removeIfTombstoned_find_not_removed he hf]
  rw [delete_removed_doc hdoc]
  simp only [specDelete, hscan]
  simp [flattenDoc_cons]

/-- Witness for C4 at a concrete input: an entry with no attributes at all
(identifier absent) passes through verbatim over the empty store. -/
theorem delete_removed_passthrough_witness :
    delete_removed [] (flattenDoc [Chunk.entry [] []]) =
      ⟨[], false, "", false,
        Chunk.flatten (.entry [] []) ++ flattenDoc []⟩ := by
  have h := @delete_removed_passthrough [] [] [] [] (by decide) (Or.inl rfl)
  simpa using h

/-- C10: `get_ids` returns the identifiers of the non-removed records (in
store order) when `ignore_removed` is `true`, and always returns the
empty list when `ignore_removed` is `false`, whatever the store holds. -/
theorem get_ids_spec (elements : List AppElement) :
    get_ids elements true = (elements.filter (fun e => !e.removed)).filterMap (fun e => e.id)
    ∧ get_ids elements false = [] := by
  constructor
  · simp [get_ids]
  · simp [get_ids]

/-- C2 (code bug): the source `PartialEq` never produces an answer for a
record lacking an identifier — the `None` arm compares `self == other`
with the very same comparator, so the comparison is not total and never
returns `false`; at every recursion depth the comparison with any other
record is still undecided (in Rust: infinite recursion, stack overflow).
The `Some` arm does terminate and compares identifiers. -/
theorem partialEq_idless_diverges :
    (∀ (fuel : Nat) (b : AppElement),
      eqFuel fuel (AppElement.new none "a" "d" none) b = none)
    ∧ eqFuel 1 (AppElement.new (some 3) "a" "d" none) (AppElement.new (some 3) "x" "y" none)
        = some true := by
  constructor
  · intro fuel
    induction fuel with
    | zero => intro b; rfl
    | succ f ih => intro b; rw [eqFuel]; exact ih b
  · rfl

/-- C3 (code bug): on the store `[{id: Some 7}]` — which contains no
record lacking an identifier — the `add_missing_ids` of `src/main.rs`
(the module compiled into the binary) returns `entries_added = true`
with an empty `new_ids`, because it compares the total element count to
the count of identifier-less elements; the `src/data.rs` copy of the same
function returns `false` as the claim states. -/
theorem add_missing_ids_main_flag_wrong :
    add_missing_ids_main [⟨some 7, "t", "d", none, false⟩] [] (fun _ => 1) 0 1
      = some ([⟨some 7, "t", "d", none, false⟩], true, [], [], 0)
    ∧ ([⟨some 7, "t", "d", none, false⟩] : List AppElement).all (fun e => e.id.isSome) = true
    ∧ add_missing_ids [⟨some 7, "t", "d", none, false⟩] [] (fun _ => 1) 0 1
      = some ([⟨some 7, "t", "d", none, false⟩], false, [], [], 0) :=
  ⟨rfl, rfl, rfl⟩

/-- C5: a successful `generate_id` returns an identifier that is non-zero
and not in the supplied existing set, appends it to that set and assigns
it to the record; and across one allocation batch (the traversal of
`add_missing_ids`) the allocated identifiers are pairwise distinct,
non-zero, and disjoint from the originally supplied set, which grows by
exactly the batch in order. -/
theorem generate_id_spec (e : AppElement) (l : List AppElement) (existing : List Nat)
    (rng : Nat → Nat) (k fuel : Nat) :
    (∀ v e' ex' k', generate_id e existing rng k fuel = some (v, e', ex', k') →
      v ≠ 0 ∧ v ∉ existing ∧ ex' = existing ++ [v] ∧ e' = { e with id := some v })
    ∧ (∀ r, allocBatch rng fuel l existing k = some r →
      r.newIds.Nodup ∧ (∀ u ∈ r.newIds, u ∉ existing ∧ u ≠ 0) ∧
        r.existing = existing ++ r.newIds) := by
  constructor
  · intro v e' ex' k' h
    unfold generate_id at h
    cases hg : genLoop existing rng fuel k with
    | none => rw [hg] at h; simp at h
    | some p =>
      rw [hg] at h
      obtain ⟨w, kw⟩ := p
      obtain ⟨hw0, hwex⟩ := genLoop_sound hg
      cases h
      exact ⟨hw0, hwex, rfl, rfl⟩
  · intro r h
    obtain ⟨hex, hmem, hnd⟩ := allocBatch_sound l existing k r h
    exact ⟨hnd, hmem, hex⟩

/-- Witness for C5 at a concrete input: the rng yields 5, which is
accepted against the empty existing set. -/
theorem generate_id_spec_witness :
    (5 : Nat) ≠ 0 ∧ (5 : Nat) ∉ ([] : List Nat) ∧
      ([5] : List Nat) = [] ++ [5] := by
  have h := (generate_id_spec (AppElement.new none "t" "d" none) [] [] (fun _ => 5) 0 1).1
    5 ({ AppElement.new none "t" "d" none with id := some 5 }) ([] ++ [5]) 1 rfl
  exact ⟨h.1, h.2.1, rfl⟩

/-- C7: merging decoded remote records that carry identifiers is
duplicate-free and complete — the comparison terminates and, for every
identifier `v`, the number of records carrying `v` is unchanged when
some store record already carries it, and grows by exactly one when none
does and some merged record carries it. -/
theorem add_new_elements_merge (elements new : List AppElement)
    (h : ∀ e ∈ new, e.id.isSome) :
    ∃ res, add_new_elements elements new = some res ∧
      ∀ v : Nat, countId v res =
        countId v elements +
          (if countId v elements = 0 ∧
              new.any (fun e => decide (e.id = some v)) = true then 1 else 0) := by
  induction new generalizing elements with
  | nil =>
    refine ⟨elements, rfl, ?_⟩
    intro v
    simp
  | cons e rest ih =>
    have he : e.id.isSome := h e (List.mem_cons_self e rest)
    obtain ⟨j, hj⟩ := Option.isSome_iff_exists.mp he
    have hrest : ∀ x ∈ rest, x.id.isSome := fun x hx => h x (List.mem_cons_of_mem e hx)
    rw [add_new_elements, anyEqRust_eq hj]
    by_cases hany : elements.any (fun i => decide (some j = i.id)) = true
    · rw [hany]
      obtain ⟨res, hres, hcount⟩ := ih elements hrest
      refine ⟨res, hres, ?_⟩
      intro v
      rw [hcount v]
      by_cases hvj : v = j
      · subst hvj
        have hpos : countId v elements ≠ 0 := by
          obtain ⟨i, hi, hid⟩ := List.any_eq_true.mp hany
          have : i ∈ elements.filter (fun e => decide (e.id = some v)) := by
            refine List.mem_filter.mpr ⟨hi, ?_⟩
            simp at hid
            simp [hid]
          intro hc
          rw [countId, List.length_eq_zero] at hc
          rw [hc] at this
          exact List.not_mem_nil i this
        rw [if_neg (fun hc => hpos hc.1), if_neg (fun hc => hpos hc.1)]
      · have hev : (decide (e.id = some v)) = false := by
          simp [hj]
          intro hc
          exact hvj hc.symm
        simp [List.any_cons, hev]
    · simp only [Bool.not_eq_true] at hany
      rw [hany]
      obtain ⟨res, hres, hcount⟩ := ih (elements ++ [e]) hrest
      refine ⟨res, hres, ?_⟩
      intro v
      rw [hcount v]
      have hnone : ∀ i ∈ elements, i.id ≠ some j := by
        intro i hi hc
        have : elements.any (fun i => decide (some j = i.id)) = true :=
          List.any_eq_true.mpr ⟨i, hi, by simp [hc]⟩
        rw [hany] at this
        exact Bool.false_ne_true this
      by_cases hvj : v = j
      · subst hvj
        have hz : countId v elements = 0 := by
          rw [countId, List.length_eq_zero, List.filter_eq_nil_iff]
          intro i hi
          simp [hnone i hi]
        have happ : countId v (elements ++ [e]) = 1 := by
          rw [countId_append, hz]
          simp [countId, hj]
        rw [happ, hz]
        have hone : ¬(1 = 0 ∧ rest.any (fun e => decide (e.id = some v)) = true) := by
          intro hc
          exact one_ne_zero hc.1
        rw [if_neg hone]
        have : ((e :: rest).any (fun e => decide (e.id = some v))) = true := by
          simp [List.any_cons, hj]
        rw [if_pos ⟨rfl, this⟩]
      · have h0 : countId v [e] = 0 := by
          simp [countId, hj]
          intro hc
          exact hvj hc.symm
        have happ : countId v (elements ++ [e]) = countId v elements := by
          rw [countId_append, h0]
          exact Nat.add_zero _
        rw [happ]
        have hev : (decide (e.id = some v)) = false := by
          simp [hj]
          intro hc
          exact hvj hc.symm
        simp [List.any_cons, hev]

/-- Witness for C7 at a concrete input: merging one remote record with
identifier 1 into the empty store. -/
theorem add_new_elements_merge_witness :
    ∃ res, add_new_elements [] [⟨some 1, "t", "d", none, false⟩] = some res ∧
      ∀ v : Nat, countId v res =
        countId v [] +
          (if countId v [] = 0 ∧
              ([⟨some 1, "t", "d", none, false⟩] : List AppElement).any
                (fun e => decide (e.id = some v)) = true then 1 else 0) :=
  add_new_elements_merge [] [⟨some 1, "t", "d", none, false⟩] (by decide)

theorem insStep_copy {elements : List AppElement} {ids : List Nat} {out : List XmlEvent}
    {ev : XmlEvent} (h : isRegistryStart ev = false) :
    insStep elements ids out ev = out ++ [ev] := by
  cases ev with
  | start tag attrs =>
    have : tag ≠ "registry" := by simpa [isRegistryStart] using h
    simp [insStep, this]
  | stop tag => rfl
  | text s => rfl

theorem foldl_insStep_copy {elements : List AppElement} {ids : List Nat} :
    ∀ {evs out : List XmlEvent}, (∀ ev ∈ evs, isRegistryStart ev = false) →
      evs.foldl (insStep elements ids) out = out ++ evs := by
  intro evs
  induction evs with
  | nil => intro out _; simp
  | cons ev rest ih =>
    intro out h
    rw [List.foldl_cons, insStep_copy (h ev (List.mem_cons_self ev rest)),
      ih (fun x hx => h x (List.mem_cons_of_mem ev hx))]
    simp

theorem filter_ids_filterMap (ids : List Nat) :
    ∀ (elements : List AppElement),
      (elements.filter (fun e => ids.any (fun i => e.id = some i))).filterMap (fun e => e.id)
        = (elements.filterMap (fun e => e.id)).filter (fun w => ids.any (fun i => w = i)) := by
  intro elements
  induction elements with
  | nil => rfl
  | cons e rest ih =>
    cases he : e.id with
    | none =>
      have hpred : (ids.any (fun i => decide (e.id = some i))) = false := by
        simp [he]
      rw [List.filter_cons, if_neg (by rw [hpred]; exact Bool.false_ne_true),
        List.filterMap_cons_none he, ih]
    | some v =>
      have hqp : (ids.any (fun i => decide (e.id = some i)))
          = (ids.any (fun i => decide (v = i))) := by
        simp [he]
      by_cases hv : ids.any (fun i => decide (v = i)) = true
      · rw [List.filter_cons, if_pos (by rw [hqp]; exact hv),
          List.filterMap_cons_some he, List.filterMap_cons_some he,
          List.filter_cons, if_pos hv, ih]
      · rw [List.filter_cons, if_neg (by rw [hqp]; exact hv),
          List.filterMap_cons_some he, List.filter_cons, if_neg hv, ih]

/-- C6: when the `registry` root start tag occurs exactly once and the
given identifier set consists of identifiers of records in the store
(pairwise distinct, each carried by exactly one record — the store's
identifiers being unique), the insertion pass emits, right after the
root start tag, the serialization of exactly the selected records in
store order (each record's subtree via `writeElement`, which reproduces
title, description and — when present — due), keeps all pre-existing
content unchanged and in its original order, and serializes exactly one
subtree per identifier in the set: the identifiers of the serialized
records are a permutation of the set.  Records whose identifier is not
in the set contribute nothing (they are filtered out). -/
theorem insert_created_entries_spec
    (elements : List AppElement) (ids : List Nat)
    {pre post : List XmlEvent} (attrs : List (String × String))
    (hpre : ∀ ev ∈ pre, isRegistryStart ev = false)
    (hpost : ∀ ev ∈ post, isRegistryStart ev = false)
    (hnd : ids.Nodup)
    (hsub : ∀ i ∈ ids, ∃ e ∈ elements, e.id = some i)
    (hels : (elements.filterMap (fun e => e.id)).Nodup) :
    insert_created_entries elements (pre ++ XmlEvent.start "registry" attrs :: post) ids =
      pre ++ XmlEvent.start "registry" attrs ::
        (((elements.filter (fun e => ids.any (fun i => e.id = some i))).map writeElement).flatten
          ++ post)
    ∧ List.Perm
        ((elements.filter (fun e => ids.any (fun i => e.id = some i))).filterMap
          (fun e => e.id))
        ids := by
  constructor
  · rw [insert_created_entries, List.foldl_append, foldl_insStep_copy hpre, List.foldl_cons,
      insStep]
    simp only [if_pos rfl]
    rw [foldl_insStep_copy hpost]
    simp [List.append_assoc]
  · rw [filter_ids_filterMap]
    refine (List.perm_ext_iff_of_nodup (List.Nodup.filter _ hels) hnd).mpr ?_
    intro w
    constructor
    · intro hw
      have hmv := List.mem_filter.mp hw
      rcases List.any_eq_true.mp hmv.2 with ⟨i, hi, hwi⟩
      have : w = i := by simpa using hwi
      subst this
      exact hi
    · intro hw
      refine List.mem_filter.mpr ⟨?_, ?_⟩
      · rcases hsub w hw with ⟨e, he, hei⟩
        exact List.mem_filterMap.mpr ⟨e, he, hei⟩
      · exact List.any_eq_true.mpr ⟨w, hw, by simp⟩

/-- Witness for C6 at a concrete input: one record with identifier 3,
selected by the set `{3}`, inserted right after the root start tag. -/
theorem insert_created_entries_spec_witness :
    insert_created_entries [⟨some 3, "t", "d", some 9, false⟩]
        ([] ++ XmlEvent.start "registry" [] :: [XmlEvent.stop "registry"]) [3] =
      [] ++ XmlEvent.start "registry" [] ::
        ((([⟨some 3, "t", "d", some 9, false⟩].filter
            (fun e => [3].any (fun i => e.id = some i))).map writeElement).flatten
          ++ [XmlEvent.stop "registry"]) :=
  (insert_created_entries_spec [⟨some 3, "t", "d", some 9, false⟩] [3] []
    (by intro ev h; simp at h) (by decide) (by decide)
    (by decide) (by decide)).1

theorem sync_result_synced (st : AppState) (io : SyncEnv) :
    ∀ r, sync st io = r →
      (∀ st', r = .ok st' → st'.synced = true)
      ∧ (∀ e st', r = .fail e st' → st'.synced = st.synced)
      ∧ (∀ st', r = .crash st' → st'.synced = st.synced) := by
  intro r hr
  cases hf : io.fetchResult with
  | error e0 =>
    simp only [sync, hf] at hr
    subst hr
    refine ⟨?_, ?_, ?_⟩
    · intro st' h; cases h
    · intro e st' h; cases h; rfl
    · intro st' h; cases h
  | ok res =>
    simp only [sync, hf] at hr
    cases hd : io.decode (delete_removed st.elements res).out with
    | none =>
      simp only [hd] at hr
      subst hr
      refine ⟨?_, ?_, ?_⟩
      · intro st' h; cases h
      · intro e st' h; cases h
      · intro st' h; cases h; rfl
    | some fetched =>
      simp only [hd] at hr
      cases ha : add_missing_ids (delete_removed st.elements res).elements
          ((fetched.filter (fun e => !e.removed)).filterMap (fun e => e.id))
          io.rng io.k io.fuel with
      | none =>
        simp only [ha] at hr
        subst hr
        refine ⟨?_, ?_, ?_⟩
        · intro st' h; cases h
        · intro e st' h; cases h
        · intro st' h; cases h; rfl
      | some t =>
        simp only [ha] at hr
        obtain ⟨els, ea, ns, ex2, k2⟩ := t
        cases hmod : (delete_removed st.elements res).modified || ea with
        | true =>
          simp only [hmod, if_true] at hr
          cases hu : io.uploadResult with
          | error e1 =>
            simp only [hu] at hr
            subst hr
            refine ⟨?_, ?_, ?_⟩
            · intro st' h; cases h
            · intro e st' h; cases h; rfl
            · intro st' h; cases h
          | ok code =>
            simp only [hu] at hr
            cases hm : add_new_elements els fetched with
            | none =>
              simp only [hm] at hr
              subst hr
              refine ⟨?_, ?_, ?_⟩
              · intro st' h; cases h
              · intro e st' h; cases h
              · intro st' h; cases h; rfl
            | some els2 =>
              simp only [hm] at hr
              subst hr
              refine ⟨?_, ?_, ?_⟩
              · intro st' h; cases h; rfl
              · intro e st' h; cases h
              · intro st' h; cases h
        | false =>
          simp only [hmod, Bool.false_eq_true, if_false] at hr
          cases hm : add_new_elements els fetched with
          | none =>
            simp only [hm] at hr
            subst hr
            refine ⟨?_, ?_, ?_⟩
            · intro st' h; cases h
            · intro e st' h; cases h
            · intro st' h; cases h; rfl
          | some els2 =>
            simp only [hm] at hr
            subst hr
            refine ⟨?_, ?_, ?_⟩
            · intro st' h; cases h; rfl
            · intro e st' h; cases h
            · intro st' h; cases h

/-! C8 claim theorems -/

/-- C8 (amended): for a store whose `synced` flag is `false`, the sync
pipeline surfaces every transport failure (fetch or upload) at the step
it occurs as that operation's error result and leaves `synced = false`;
a failing required decode of the post-deletion document also aborts at
that step with `synced` still `false`, but as a crash (`.unwrap()`
panic), not as an error result; and `synced` becomes `true` only when
the whole pipeline completes. -/
theorem sync_failure_surfaces (st : AppState) (io : SyncEnv) (h : st.synced = false) :
    (∀ e, io.fetchResult = .error e → sync st io = .fail e st)
    ∧ (∀ res, io.fetchResult = .ok res →
        io.decode (delete_removed st.elements res).out = none →
        sync st io = .crash ⟨(delete_removed st.elements res).elements, st.synced⟩)
    ∧ (∀ res fetched els ea ns ex2 k2 e, io.fetchResult = .ok res →
        io.decode (delete_removed st.elements res).out = some fetched →
        add_missing_ids (delete_removed st.elements res).elements
          ((fetched.filter (fun e => !e.removed)).filterMap (fun e => e.id))
          io.rng io.k io.fuel = some (els, ea, ns, ex2, k2) →
        ((delete_removed st.elements res).modified || ea) = true →
        io.uploadResult = .error e →
        sync st io = .fail e ⟨els, st.synced⟩)
    ∧ (∀ e st', sync st io = .fail e st' → st'.synced = false)
    ∧ (∀ st', sync st io = .crash st' → st'.synced = false)
    ∧ (∀ st', sync st io = .ok st' → st'.synced = true) := by
  refine ⟨?_, ?_, ?_, ?_, ?_, ?_⟩
  · intro e he
    simp [sync, he]
  · intro res hres hdec
    simp [sync, hres, hdec]
  · intro res fetched els ea ns ex2 k2 e hres hdec halloc hmod hup
    simp [sync, hres, hdec, halloc, hmod, hup]
  · intro e st' hr
    have := ((sync_result_synced st io) _ hr).2.1 e st' rfl
    rw [this]
    exact h
  · intro st' hr
    have := ((sync_result_synced st io) _ hr).2.2 st' rfl
    rw [this]
    exact h
  · intro st' hr
    exact ((sync_result_synced st io) _ hr).1 st' rfl

/-- Witness for the C8 theorem at a concrete input: a failing fetch is
surfaced as the operation's error result with the store unchanged. -/
theorem sync_failure_surfaces_witness :
    sync ⟨[], false⟩ ⟨.error 7, fun _ => some [], .ok 200, fun _ => 1, 0, 1⟩ =
      .fail 7 ⟨[], false⟩ :=
  (sync_failure_surfaces ⟨[], false⟩
    ⟨.error 7, fun _ => some [], .ok 200, fun _ => 1, 0, 1⟩ rfl).1 7 rfl

/-- Counterexample to C8 as stated: a failing required decode is not
surfaced to the caller as an error result — the pipeline stops in a
crash (the source calls `.unwrap()` on `from_str`, which panics; e.g.
when the fetch degraded to the empty document on a non-XML content
type, on which the registry decode fails). -/
theorem sync_decode_failure_crashes :
    sync ⟨[], false⟩ ⟨.ok [], fun _ => none, .ok 200, fun _ => 1, 0, 1⟩ =
      .crash ⟨[], false⟩ := by
  simp [sync, delete_removed]

/-! Helper lemmas for the store invariant (C9) -/

theorem nonRemovedIds_append (l1 l2 : List AppElement) :
    nonRemovedIds (l1 ++ l2) = nonRemovedIds l1 ++ nonRemovedIds l2 := by
  simp [nonRemovedIds, List.filter_append]

theorem nonRemovedIds_cons_removed {e : AppElement} (h : e.removed = true)
    (l : List AppElement) : nonRemovedIds (e :: l) = nonRemovedIds l := by
  simp [nonRemovedIds, List.filter_cons, h]

theorem nonRemovedIds_cons_none {e : AppElement} (h : e.removed = false)
    (hid : e.id = none) (l : List AppElement) :
    nonRemovedIds (e :: l) = nonRemovedIds l := by
  rw [nonRemovedIds, List.filter_cons, if_pos (by simp [h]),
    List.filterMap_cons_none hid]
  rfl

theorem nonRemovedIds_cons_some {e : AppElement} {v : Nat} (h : e.removed = false)
    (hid : e.id = some v) (l : List AppElement) :
    nonRemovedIds (e :: l) = v :: nonRemovedIds l := by
  rw [nonRemovedIds, List.filter_cons, if_pos (by simp [h]),
    List.filterMap_cons_some hid]
  rfl

theorem remove_sublist (v : Nat) :
    ∀ (l : List AppElement), List.Sublist (nonRemovedIds (remove v l).1) (nonRemovedIds l) := by
  intro l
  induction l with
  | nil => exact List.Sublist.refl _
  | cons e rest ih =>
    rw [remove]
    by_cases hid : e.id = some v
    · rw [if_pos hid]
      cases hrm : e.removed with
      | true =>
        rw [nonRemovedIds_cons_removed rfl, nonRemovedIds_cons_removed hrm]
      | false =>
        rw [nonRemovedIds_cons_removed rfl, nonRemovedIds_cons_some hrm hid]
        exact (List.Sublist.refl _).cons v
    · rw [if_neg hid]
      cases hrm : e.removed with
      | true =>
        rw [nonRemovedIds_cons_removed (e := e) hrm, nonRemovedIds_cons_removed (e := e) hrm]
        exact ih
      | false =>
        cases hi : e.id with
        | none =>
          rw [nonRemovedIds_cons_none (e := e) hrm hi, nonRemovedIds_cons_none (e := e) hrm hi]
          exact ih
        | some w =>
          rw [nonRemovedIds_cons_some (e := e) hrm hi, nonRemovedIds_cons_some (e := e) hrm hi]
          exact ih.cons₂ w

theorem removeIfTombstoned_sublist (v : Nat) :
    ∀ (l : List AppElement), List.Sublist (removeIfTombstoned v l).1 l := by
  intro l
  induction l with
  | nil => exact List.Sublist.refl _
  | cons e rest ih =>
    rw [removeIfTombstoned]
    by_cases hid : e.id = some v
    · rw [if_pos hid]
      cases hrm : e.removed with
      | true => simp
      | false => simp
    · rw [if_neg hid]
      exact ih.cons₂ e

theorem attrStep_sublist (st : List AppElement × Bool) (kv : String × String) :
    List.Sublist (attrStep st kv).1 st.1 := by
  rw [attrStep]
  by_cases hk : kv.1 = "id"
  · rw [if_pos hk]
    cases hp : parseU16 kv.2 with
    | none => exact List.Sublist.refl _
    | some v =>
      by_cases hf : (removeIfTombstoned v st.1).2 = true
      · simpa [hf] using removeIfTombstoned_sublist v st.1
      · simp [hf]
  · rw [if_neg hk]

theorem scanAttrs_sublist :
    ∀ (attrs : List (String × String)) (st : List AppElement × Bool),
      List.Sublist (attrs.foldl attrStep st).1 st.1 := by
  intro attrs
  induction attrs with
  | nil => intro st; exact List.Sublist.refl _
  | cons kv rest ih =>
    intro st
    rw [List.foldl_cons]
    exact (ih (attrStep st kv)).trans (attrStep_sublist st kv)

theorem delStep_sublist (acc : DelAcc) (ev : XmlEvent) :
    List.Sublist (delStep acc ev).elements acc.elements := by
  cases ev with
  | start tag attrs =>
    simp only [delStep]
    split
    · exact List.Sublist.refl _
    · split
      · split
        · exact scanAttrs_sublist attrs (acc.elements, true)
        · exact scanAttrs_sublist attrs (acc.elements, true)
      · exact List.Sublist.refl _
  | stop tag =>
    simp only [delStep]
    split
    · exact List.Sublist.refl _
    · split
      · exact List.Sublist.refl _
      · exact List.Sublist.refl _
  | text s =>
    simp only [delStep]
    split
    · exact List.Sublist.refl _
    · exact List.Sublist.refl _

theorem foldl_delStep_sublist :
    ∀ (evs : List XmlEvent) (acc : DelAcc),
      List.Sublist (evs.foldl delStep acc).elements acc.elements := by
  intro evs
  induction evs with
  | nil => intro acc; exact List.Sublist.refl _
  | cons ev rest ih =>
    intro acc
    rw [List.foldl_cons]
    exact (ih (delStep acc ev)).trans (delStep_sublist acc ev)

theorem delete_removed_elements_sublist (l : List AppElement) (evs : List XmlEvent) :
    List.Sublist (delete_removed l evs).elements l :=
  foldl_delStep_sublist evs ⟨l, false, "", false, []⟩

theorem allocBatch_nonRemoved {rng : Nat → Nat} {fuel : Nat} :
    ∀ {l : List AppElement} {ex : List Nat} {k : Nat} {r : AllocResult},
      allocBatch rng fuel l ex k = some r →
      (∀ w ∈ nonRemovedIds r.elements, w ∈ nonRemovedIds l ∨ w ∈ r.newIds)
      ∧ ((nonRemovedIds l).Nodup → (∀ w ∈ nonRemovedIds l, w ∈ ex) →
          (nonRemovedIds r.elements).Nodup) := by
  intro l
  induction l with
  | nil =>
    intro ex k r h
    cases h
    exact ⟨fun w hw => Or.inl hw, fun h1 _ => h1⟩
  | cons e rest ih =>
    intro ex k r h
    rw [allocBatch] at h
    cases hi : e.id with
    | some i =>
      cases hr1 : allocBatch rng fuel rest ex k with
      | none => simp [hi, hr1] at h
      | some r1 =>
        simp only [hi, hr1, Option.map_some'] at h
        have hre := Option.some.inj h
        subst hre
        obtain ⟨ihsub, ihnd⟩ := ih hr1
        cases hrm : e.removed with
        | true =>
          constructor
          · intro w hw
            rw [nonRemovedIds_cons_removed hrm] at hw ⊢
            exact ihsub w hw
          · intro h1 h2
            rw [nonRemovedIds_cons_removed hrm] at h1 h2 ⊢
            exact ihnd h1 h2
        | false =>
          constructor
          · intro w hw
            rw [nonRemovedIds_cons_some hrm hi] at hw ⊢
            rcases List.mem_cons.mp hw with hw1 | hw1
            · exact Or.inl (hw1 ▸ List.mem_cons_self _ _)
            · rcases ihsub w hw1 with h3 | h3
              · exact Or.inl (List.mem_cons_of_mem _ h3)
              · exact Or.inr h3
          · intro h1 h2
            rw [nonRemovedIds_cons_some hrm hi] at h1 h2 ⊢
            have hnd := List.nodup_cons.mp h1
            refine List.nodup_cons.mpr ⟨?_, ihnd hnd.2
              (fun w hw => h2 w (List.mem_cons_of_mem _ hw))⟩
            intro hc
            rcases ihsub i hc with h3 | h3
            · exact hnd.1 h3
            · have hiex : i ∈ ex := h2 i (List.mem_cons_self _ _)
              have := (allocBatch_sound rest ex k r1 hr1).2.1 i h3
              exact this.1 hiex
    | none =>
      cases hg : genLoop ex rng fuel k with
      | none => simp [hi, hg] at h
      | some p =>
        obtain ⟨v, k1⟩ := p
        cases hr1 : allocBatch rng fuel rest (ex ++ [v]) k1 with
        | none => simp [hi, hg, hr1] at h
        | some r1 =>
          simp only [hi, hg, hr1, Option.map_some'] at h
          have hre := Option.some.inj h
          subst hre
          obtain ⟨ihsub, ihnd⟩ := ih hr1
          obtain ⟨hv0, hvex⟩ := genLoop_sound hg
          have htail : nonRemovedIds (e :: rest) = nonRemovedIds rest := by
            cases hrm : e.removed with
            | true => exact nonRemovedIds_cons_removed hrm rest
            | false => exact nonRemovedIds_cons_none hrm hi rest
          constructor
          · intro w hw
            rw [htail]
            cases hrm : e.removed with
            | true =>
              rw [nonRemovedIds_cons_removed (e := { e with id := some v }) hrm] at hw
              rcases ihsub w hw with h3 | h3
              · exact Or.inl h3
              · exact Or.inr (List.mem_cons_of_mem _ h3)
            | false =>
              rw [nonRemovedIds_cons_some (e := { e with id := some v }) hrm rfl] at hw
              rcases List.mem_cons.mp hw with hw1 | hw1
              · exact Or.inr (hw1 ▸ List.mem_cons_self _ _)
              · rcases ihsub w hw1 with h3 | h3
                · exact Or.inl h3
                · exact Or.inr (List.mem_cons_of_mem _ h3)
          · intro h1 h2
            rw [htail] at h1 h2
            have hnd1 : (nonRemovedIds r1.elements).Nodup :=
              ihnd h1 (fun w hw => List.mem_append_left _ (h2 w hw))
            cases hrm : e.removed with
            | true =>
              rw [nonRemovedIds_cons_removed (e := ⟨some v, e.title, e.description, e.due, true⟩) rfl]
              exact hnd1
            | false =>
              rw [nonRemovedIds_cons_some (e := ⟨some v, e.title, e.description, e.due, false⟩) rfl rfl]
              refine List.nodup_cons.mpr ⟨?_, hnd1⟩
              intro hc
              rcases ihsub v hc with h3 | h3
              · exact hvex (h2 v h3)
              · have := (allocBatch_sound rest (ex ++ [v]) k1 r1 hr1).2.1 v h3
                exact this.1 (List.mem_append_right _ (List.mem_singleton.mpr rfl))

theorem anyEqRust_none_of_idless {e : AppElement} (h : e.id = none)
    (x : AppElement) (xs : List AppElement) : anyEqRust e (x :: xs) = none := by
  rw [anyEqRust, eqRust, h]

theorem add_new_elements_nodup :
    ∀ {new l l' : List AppElement}, add_new_elements l new = some l' →
      (nonRemovedIds l).Nodup → (nonRemovedIds l').Nodup := by
  intro new
  induction new with
  | nil =>
    intro l l' h hnd
    cases h
    exact hnd
  | cons e rest ih =>
    intro l l' h hnd
    rw [add_new_elements] at h
    cases hi : e.id with
    | none =>
      cases l with
      | nil =>
        simp only [anyEqRust] at h
        refine ih h ?_
        rw [List.nil_append]
        cases hrm : e.removed with
        | true =>
          rw [nonRemovedIds_cons_removed hrm]
          exact List.nodup_nil
        | false =>
          rw [nonRemovedIds_cons_none hrm hi]
          exact List.nodup_nil
      | cons x xs =>
        rw [anyEqRust_none_of_idless hi] at h
        exact absurd h (by simp)
    | some j =>
      rw [anyEqRust_eq hi] at h
      by_cases hany : l.any (fun i => decide (some j = i.id)) = true
      · simp only [hany] at h
        exact ih h hnd
      · rw [Bool.not_eq_true] at hany
        simp only [hany] at h
        refine ih h ?_
        have hnomem : j ∉ nonRemovedIds l := by
          intro hc
          rw [nonRemovedIds] at hc
          rcases List.mem_filterMap.mp hc with ⟨a, ha, hai⟩
          have : l.any (fun i => decide (some j = i.id)) = true :=
            List.any_eq_true.mpr ⟨a, List.mem_of_mem_filter ha, by simp [hai]⟩
          rw [hany] at this
          exact Bool.false_ne_true this
        have happ : nonRemovedIds (l ++ [e]) = nonRemovedIds l ++ nonRemovedIds [e] :=
          nonRemovedIds_append l [e]
        rw [happ]
        cases hrm : e.removed with
        | true =>
          rw [nonRemovedIds_cons_removed hrm]
          simpa [nonRemovedIds] using hnd
        | false =>
          rw [nonRemovedIds_cons_some hrm hi]
          refine List.nodup_append.mpr ⟨hnd, by simp [nonRemovedIds], ?_⟩
          intro a ha hb
          have : a = j := by simpa [nonRemovedIds] using hb
          subst this
          exact hnomem ha

theorem nonRemovedIds_sublist {l1 l2 : List AppElement} (h : List.Sublist l1 l2) :
    List.Sublist (nonRemovedIds l1) (nonRemovedIds l2) :=
  (h.filter _).filterMap _

/-! C9 claim theorems -/

/-- Counterexample to C9 as stated: a store with two non-removed records
both carrying identifier 9 is reachable from the empty store through the
listed operations.  A remote record with identifier 9 is merged; a fresh
identifier-less record is added; then a sync against a remote document
that no longer mentions identifier 9 seeds the allocator with an
existing-identifier set (the decoded remote identifiers) that does not
contain 9, and the random generator returns 9 — allocating a duplicate
of the identifier still held locally. -/
theorem reachable_duplicate_ids :
    Reachable [⟨some 9, "B", "d", none, false⟩, ⟨some 9, "A", "d", none, false⟩]
    ∧ ¬ (nonRemovedIds
        [⟨some 9, "B", "d", none, false⟩, ⟨some 9, "A", "d", none, false⟩]).Nodup := by
  constructor
  · have h1 : Reachable [⟨some 9, "B", "d", none, false⟩] :=
      @Reachable.merge [] [⟨some 9, "B", "d", none, false⟩]
        [⟨some 9, "B", "d", none, false⟩] Reachable.empty (by decide) (by decide)
    have h2 := Reachable.push "A" "d" h1
    have h2' : Reachable
        [⟨some 9, "B", "d", none, false⟩, ⟨none, "A", "d", none, false⟩] := h2
    exact Reachable.allocate h2' (by decide :
      add_missing_ids [⟨some 9, "B", "d", none, false⟩, ⟨none, "A", "d", none, false⟩] []
          (fun _ => 9) 0 1 =
        some ([⟨some 9, "B", "d", none, false⟩, ⟨some 9, "A", "d", none, false⟩],
          true, [9], [9], 1))
  · decide

/-- C9 (amended): every store reachable from the empty store via push of
a fresh record, tombstoning, the deletion pass, identifier allocation
and merge satisfies the uniqueness invariant — among non-removed
records, identifiers are pairwise distinct — provided every allocation
is seeded with an existing-identifier set that covers the store's own
non-removed identifiers.  (Without that seeding condition the invariant
fails: see the counterexample — the source seeds the allocator only with
the remote document's identifiers.) -/
theorem seeded_reachable_nodup :
    ∀ {l : List AppElement}, ReachableSeeded l → (nonRemovedIds l).Nodup := by
  intro l h
  induction h with
  | empty => exact List.nodup_nil
  | push t d _ ih =>
    rw [push, nonRemovedIds_append,
      nonRemovedIds_cons_none (e := AppElement.new none t d none) rfl rfl]
    simpa [nonRemovedIds] using ih
  | remove v _ ih =>
    exact List.Nodup.sublist (remove_sublist v _) ih
  | delete evs _ ih =>
    exact List.Nodup.sublist (nonRemovedIds_sublist (delete_removed_elements_sublist _ evs)) ih
  | allocate _ hseed halloc ih =>
    rcases Option.map_eq_some'.mp halloc with ⟨r, hr, hre⟩
    cases hre
    exact (allocBatch_nonRemoved hr).2 ih hseed
  | merge _ _ hmerge ih =>
    exact add_new_elements_nodup hmerge ih

/-- Witness for the C9 theorem at a concrete reachable store: merging one
remote record with identifier 9 into the empty store. -/
theorem seeded_reachable_nodup_witness :
    (nonRemovedIds [⟨some 9, "B", "d", none, false⟩]).Nodup :=
  seeded_reachable_nodup
    (@ReachableSeeded.merge [] [⟨some 9, "B", "d", none, false⟩]
      [⟨some 9, "B", "d", none, false⟩] ReachableSeeded.empty (by decide) (by decide))

end Freemind
